import Mathlib

/-!
Shallow embedding of `worapolburaphan/resize-image` (src/index.ts, src/storage.ts).

The program batch-resizes images: for each file it computes target dimensions
bounded by `MAX_DIMENSION` on the longest side (src/index.ts lines 53-69), then
runs a do/while quality-search loop (lines 71-117) that re-encodes the image at
decaying quality until the encoded byte length is at or below `MAX_FILE_SIZE`
or the attempt ceiling is hit, writes the final buffer (line 120), and the
driver `processAllImages` (lines 139-194) counts per-file successes/failures.

Modelling conventions:
* JavaScript numbers are modelled as `ℕ` where the source only ever holds
  naturals (dimensions, counters, byte lengths) and as `ℚ` for `quality`,
  which becomes fractional after `quality = Math.max(10, quality * 0.8)`
  (line 108).  The literal `0.8` is modelled as the exact rational `4/5`;
  every comparison the loop performs on `quality` (against the constant 10)
  is far from the tiny IEEE-754 rounding error of the double sequence, so
  the rational model and the double model take identical branches.
* The sharp encoder is an oracle `enc : EncodeConfig → List ℕ` from the
  encoder options the source passes (lines 90-102) to the produced bytes.
* `sharp`'s possible exceptions are outside the loop being modelled; the loop
  itself performs no throwing operation, so the model is a total function.
-/

namespace ResizeImage

/-- MAX_FILE_SIZE = 500 * 1024 (src/index.ts line 7). -/
def MAX_FILE_SIZE : ℕ := 500 * 1024

/-- MAX_DIMENSION = 1024 (src/index.ts line 8). -/
def MAX_DIMENSION : ℕ := 1024

/-- maxAttempts = 10 (src/index.ts line 75). -/
def maxAttempts : ℕ := 10

/-- JavaScript `Math.round (a / b)` for naturals `a`, `b` with `b > 0`:
round half up, i.e. `⌊a / b + 1 / 2⌋`, computed as a natural-number division
`(2 * a + b) / (2 * b)`. -/
def jsRound (a b : ℕ) : ℕ := (2 * a + b) / (2 * b)

/-- Dimension computation of `resizeImage` (src/index.ts lines 53-69): if
`width > height` and `width > MAX_DIMENSION` the width is clamped and the
height is `Math.round(height * MAX_DIMENSION / width)`; symmetrically for the
other branch; otherwise dimensions are unchanged.  The constant
`MAX_DIMENSION` is generalised to the parameter `maxLongestSide`, matching the
spec's Dimension Planner contract `plan(width, height, maxLongestSide)`. -/
def plan (width height maxLongestSide : ℕ) : ℕ × ℕ :=
  if height < width then
    if maxLongestSide < width then
      (maxLongestSide, jsRound (height * maxLongestSide) width)
    else (width, height)
  else
    if maxLongestSide < height then
      (jsRound (width * maxLongestSide) height, maxLongestSide)
    else (width, height)

/-- JavaScript `Math.round` on an exact rational: `⌊x + 1 / 2⌋`. -/
def jsRoundQ (x : ℚ) : ℤ := ⌊x + 1 / 2⌋

/-- PNG compression level `Math.min(9, Math.round((9 * (100 - quality)) / 100))`
(src/index.ts lines 94-97). -/
def compressionLevel (q : ℚ) : ℤ := min 9 (jsRoundQ (9 * (100 - q) / 100))

/-- Encoder options `resizeImage` passes to sharp for one attempt
(src/index.ts lines 87-102): jpeg/png/webp get explicit options derived from
the current quality; any other extension leaves the encoder at its defaults. -/
inductive EncodeConfig where
  | jpeg (quality : ℚ)
  | png (compressionLevel : ℤ) (quality : ℚ)
  | webp (quality : ℚ)
  | defaults
deriving DecidableEq

/-- Format dispatch on the output extension (src/index.ts lines 88-102). -/
def encodeConfig (ext : String) (q : ℚ) : EncodeConfig :=
  if ext = ".jpg" ∨ ext = ".jpeg" then .jpeg q
  else if ext = ".png" then .png (compressionLevel q) q
  else if ext = ".webp" then .webp q
  else .defaults

/-- One encode attempt of the quality-search loop: the quality the iteration
held, the options handed to the encoder, and the bytes the encoder returned. -/
structure Attempt where
  quality : ℚ
  config : EncodeConfig
  bytes : List ℕ
deriving DecidableEq

/-- State when the do/while loop of `resizeImage` exits (src/index.ts lines
71-117): final `buffer`, final `quality` variable, final `attempts` counter,
and the list of attempts performed, in order. -/
structure LoopResult where
  buffer : List ℕ
  quality : ℚ
  attempts : ℕ
  trace : List Attempt
deriving DecidableEq

/-- Quality update `quality = Math.max(10, quality * 0.8)` (src/index.ts
line 108).  Note the source applies no `Math.floor`. -/
def decayQuality (q : ℚ) : ℚ := max 10 (q * (4 / 5))

/-- The attempt performed at quality `q`: the record of one loop iteration's
encode (src/index.ts lines 87-104). -/
def mkAttempt (enc : EncodeConfig → List ℕ) (ext : String) (q : ℚ) : Attempt :=
  ⟨q, encodeConfig ext q, enc (encodeConfig ext q)⟩

/-- The do/while quality-search loop (src/index.ts lines 77-117), in fuelled
form.  Each iteration increments `attempts`, encodes with the options derived
from the extension and current quality, and then either updates the quality
and continues (when `buffer.length > MAX_FILE_SIZE && quality > 10` and the
while-condition `buffer.length > MAX_FILE_SIZE && attempts < maxAttempts &&
quality > 10` holds for the updated quality), or exits.  The fuel is
`maxAttempts - attempts`; the zero-fuel branch is unreachable from
`resizeLoop` because continuing requires `attempts + 1 < maxAttempts`. -/
def go (enc : EncodeConfig → List ℕ) (ext : String) :
    ℕ → ℚ → ℕ → List Attempt → LoopResult
  | 0, q, a, tr => ⟨[], q, a, tr⟩
  | f + 1, q, a, tr =>
    if MAX_FILE_SIZE < (enc (encodeConfig ext q)).length ∧ 10 < q then
      if MAX_FILE_SIZE < (enc (encodeConfig ext q)).length ∧
          a + 1 < maxAttempts ∧ 10 < decayQuality q then
        go enc ext f (decayQuality q) (a + 1) (tr ++ [mkAttempt enc ext q])
      else
        ⟨enc (encodeConfig ext q), decayQuality q, a + 1,
          tr ++ [mkAttempt enc ext q]⟩
    else
      ⟨enc (encodeConfig ext q), q, a + 1, tr ++ [mkAttempt enc ext q]⟩

/-- Entry into the loop: `quality = 95`, `attempts = 0` (src/index.ts lines
72-75), with fuel `maxAttempts`. -/
def resizeLoop (enc : EncodeConfig → List ℕ) (ext : String) : LoopResult :=
  go enc ext maxAttempts 95 0 []

/-- Quality the loop holds at the start of attempt `k + 1` while every earlier
attempt stayed over the byte budget: `qAt 0 = 95`, then repeated decay. -/
def qAt : ℕ → ℚ
  | 0 => 95
  | k + 1 => decayQuality (qAt k)

/-- Attempts at qualities `qAt a, qAt (a+1), …, qAt (a+n-1)`. -/
def attemptsFrom (enc : EncodeConfig → List ℕ) (ext : String) :
    ℕ → ℕ → List Attempt
  | _, 0 => []
  | a, n + 1 => mkAttempt enc ext (qAt a) :: attemptsFrom enc ext (a + 1) n

/-- Suffix of the file name from its last dot, lower-cased: model of
`getExtension` (src/index.ts lines 30-32), which is Node's `path.extname`
composed with `toLowerCase`.  Path-separator and leading-dot corner cases of
`extname` are not exercised by any claim. -/
def extnameCore : List Char → Option (List Char)
  | [] => none
  | c :: cs =>
    match extnameCore cs with
    | some e => some e
    | none => if c = '.' then some (c :: cs) else none

/-- Lower-cased extension of a file name (src/index.ts lines 30-32). -/
def getExtension (fileName : String) : String :=
  (match extnameCore fileName.toList with
   | some e => String.mk e
   | none => "").toLower

/-- Outcome of one `resizeImage` call (src/index.ts lines 38-137): the planned
dimensions, the loop result, and the storage writes performed.  Line 120
unconditionally writes the final buffer to the output path. -/
structure ResizeOutcome where
  newWidth : ℕ
  newHeight : ℕ
  result : LoopResult
  writes : List (String × List ℕ)
deriving DecidableEq

/-- Model of `resizeImage` after a successful metadata read: plan dimensions
with `MAX_DIMENSION` (lines 53-69), run the quality loop (lines 71-117), then
`storage.write(outputPath, buffer)` (line 120). -/
def resizeImageModel (enc : EncodeConfig → List ℕ) (width height : ℕ)
    (outputPath : String) : ResizeOutcome :=
  ⟨(plan width height MAX_DIMENSION).1, (plan width height MAX_DIMENSION).2,
    resizeLoop enc (getExtension outputPath),
    [(outputPath, (resizeLoop enc (getExtension outputPath)).buffer)]⟩

/-- Per-file driver loop of `processAllImages` (src/index.ts lines 168-183):
each file's processing either succeeds (`true`) or throws (`false`); the
try/catch at the loop body increments `errorCount` on a throw and processing
continues with the next file.  Returns the `(processedCount, errorCount)`
pair the final summary reports (lines 185-189). -/
def processFiles : List Bool → ℕ → ℕ → ℕ × ℕ
  | [], processedCount, errorCount => (processedCount, errorCount)
  | ok :: rest, processedCount, errorCount =>
    if ok then processFiles rest (processedCount + 1) errorCount
    else processFiles rest processedCount (errorCount + 1)

/-- Encoder oracle returning, for every configuration, a buffer one byte over
the budget: an image that cannot be compressed under `MAX_FILE_SIZE`. -/
def oversizedEnc : EncodeConfig → List ℕ :=
  fun _ => List.replicate (MAX_FILE_SIZE + 1) 0

/-- Encoder oracle returning an empty buffer: always under the budget. -/
def emptyEnc : EncodeConfig → List ℕ := fun _ => []

/-- Encoder oracle over budget at jpeg quality 95 and under it otherwise. -/
def stepEnc : EncodeConfig → List ℕ := fun c =>
  match c with
  | .jpeg q => if q = 95 then List.replicate (MAX_FILE_SIZE + 1) 0 else []
  | _ => []

/-! ### Basic facts about the quality sequence -/

theorem decayQuality_ge_ten (q : ℚ) : 10 ≤ decayQuality q :=
  le_max_left _ _

theorem decayQuality_le (q : ℚ) (h : 10 ≤ q) : decayQuality q ≤ q := by
  rw [decayQuality]
  exact max_le h (by linarith)

theorem decayQuality_eq (q : ℚ) (h : 10 ≤ q * (4 / 5)) :
    decayQuality q = q * (4 / 5) :=
  max_eq_right h

theorem qAt_succ (k : ℕ) : qAt (k + 1) = decayQuality (qAt k) := rfl

theorem qAt_zero : qAt 0 = 95 := rfl

theorem qAt_one : qAt 1 = 76 := by
  rw [show (1 : ℕ) = 0 + 1 from rfl, qAt_succ, qAt_zero,
    decayQuality_eq _ (by norm_num)]
  norm_num

theorem qAt_two : qAt 2 = 304 / 5 := by
  rw [show (2 : ℕ) = 1 + 1 from rfl, qAt_succ, qAt_one,
    decayQuality_eq _ (by norm_num)]
  norm_num

theorem qAt_three : qAt 3 = 1216 / 25 := by
  rw [show (3 : ℕ) = 2 + 1 from rfl, qAt_succ, qAt_two,
    decayQuality_eq _ (by norm_num)]
  norm_num

theorem qAt_four : qAt 4 = 4864 / 125 := by
  rw [show (4 : ℕ) = 3 + 1 from rfl, qAt_succ, qAt_three,
    decayQuality_eq _ (by norm_num)]
  norm_num

theorem qAt_five : qAt 5 = 19456 / 625 := by
  rw [show (5 : ℕ) = 4 + 1 from rfl, qAt_succ, qAt_four,
    decayQuality_eq _ (by norm_num)]
  norm_num

theorem qAt_six : qAt 6 = 77824 / 3125 := by
  rw [show (6 : ℕ) = 5 + 1 from rfl, qAt_succ, qAt_five,
    decayQuality_eq _ (by norm_num)]
  norm_num

theorem qAt_seven : qAt 7 = 311296 / 15625 := by
  rw [show (7 : ℕ) = 6 + 1 from rfl, qAt_succ, qAt_six,
    decayQuality_eq _ (by norm_num)]
  norm_num

theorem qAt_eight : qAt 8 = 1245184 / 78125 := by
  rw [show (8 : ℕ) = 7 + 1 from rfl, qAt_succ, qAt_seven,
    decayQuality_eq _ (by norm_num)]
  norm_num

theorem qAt_nine : qAt 9 = 4980736 / 390625 := by
  rw [show (9 : ℕ) = 8 + 1 from rfl, qAt_succ, qAt_eight,
    decayQuality_eq _ (by norm_num)]
  norm_num

theorem qAt_ten : qAt 10 = 19922944 / 1953125 := by
  rw [show (10 : ℕ) = 9 + 1 from rfl, qAt_succ, qAt_nine,
    decayQuality_eq _ (by norm_num)]
  norm_num

/-- Every quality the loop can hold in its first `maxAttempts` attempts is
strictly above the minimum 10, so the `quality > 10` guards never end the
loop before the attempt ceiling. -/
theorem qAt_gt_ten (j : ℕ) (hj : j ≤ maxAttempts) : 10 < qAt j := by
  have hj' : j ≤ 10 := hj
  interval_cases j <;>
    simp only [qAt_zero, qAt_one, qAt_two, qAt_three, qAt_four, qAt_five,
      qAt_six, qAt_seven, qAt_eight, qAt_nine, qAt_ten] <;>
    norm_num

theorem qAt_ge_ten : ∀ k, (10 : ℚ) ≤ qAt k
  | 0 => by norm_num [qAt_zero]
  | k + 1 => decayQuality_ge_ten _

theorem qAt_succ_le (k : ℕ) : qAt (k + 1) ≤ qAt k :=
  decayQuality_le _ (qAt_ge_ten k)

theorem qAt_anti : Antitone qAt :=
  antitone_nat_of_succ_le qAt_succ_le

/-! ### The loop invariant -/

/-- Invariant of the quality-search loop, for any encoder oracle: starting at
quality `q ≥ 10` with `attempts = a` and fuel `f = maxAttempts - a`, the loop
appends a non-empty block of attempts to the trace; the block starts with an
attempt at quality `q`, consecutive attempt qualities are related exactly by
`decayQuality`, every attempt's quality lies in `[10, q]`, its encoder options
come from `encodeConfig` at its own quality and its bytes from the oracle, the
final buffer is the bytes of the last attempt, the `attempts` counter counts
the attempts performed, and the final quality variable lies in `[10, q]`. -/
theorem go_spec (enc : EncodeConfig → List ℕ) (ext : String) :
    ∀ (f : ℕ) (q : ℚ) (a : ℕ) (tr : List Attempt),
      a + f = maxAttempts → 1 ≤ f → 10 ≤ q →
      ∃ (rest pre : List Attempt) (last : Attempt),
        (go enc ext f q a tr).trace = tr ++ (mkAttempt enc ext q :: rest) ∧
        mkAttempt enc ext q :: rest = pre ++ [last] ∧
        (go enc ext f q a tr).buffer = last.bytes ∧
        (go enc ext f q a tr).attempts = a + (mkAttempt enc ext q :: rest).length ∧
        (mkAttempt enc ext q :: rest).length ≤ f ∧
        (∀ x ∈ mkAttempt enc ext q :: rest,
          10 ≤ x.quality ∧ x.quality ≤ q ∧
            x.config = encodeConfig ext x.quality ∧ x.bytes = enc x.config) ∧
        List.Chain' (fun x y => y.quality = decayQuality x.quality)
          (mkAttempt enc ext q :: rest) ∧
        10 ≤ (go enc ext f q a tr).quality ∧ (go enc ext f q a tr).quality ≤ q := by
  intro f
  induction f with
  | zero => intro q a tr ha hf hq; omega
  | succ f ih =>
    intro q a tr ha hf hq
    by_cases h1 : MAX_FILE_SIZE < (enc (encodeConfig ext q)).length ∧ 10 < q
    · by_cases h2 : MAX_FILE_SIZE < (enc (encodeConfig ext q)).length ∧
          a + 1 < maxAttempts ∧ 10 < decayQuality q
      · rw [go, if_pos h1, if_pos h2]
        have hf' : 1 ≤ f := by have := h2.2.1; omega
        have ha' : (a + 1) + f = maxAttempts := by omega
        obtain ⟨rest', pre', last', htr, happ, hbuf, hatt, hlen, hall, hchain, hql, hqu⟩ :=
          ih (decayQuality q) (a + 1) (tr ++ [mkAttempt enc ext q]) ha' hf'
            (decayQuality_ge_ten q)
        refine ⟨mkAttempt enc ext (decayQuality q) :: rest',
          mkAttempt enc ext q :: pre', last', ?_, ?_, ?_, ?_, ?_, ?_, ?_, ?_, ?_⟩
        · rw [htr, List.append_assoc, List.singleton_append]
        · rw [List.cons_append, ← happ]
        · exact hbuf
        · rw [hatt]; simp only [List.length_cons]; omega
        · simp only [List.length_cons] at hlen ⊢; omega
        · intro x hx
          rcases List.mem_cons.mp hx with hx | hx
          · subst hx
            exact ⟨hq, le_refl q, rfl, rfl⟩
          · obtain ⟨hx1, hx2, hx3, hx4⟩ := hall x hx
            exact ⟨hx1, le_trans hx2 (decayQuality_le q hq), hx3, hx4⟩
        · rw [List.chain'_cons]
          exact ⟨rfl, hchain⟩
        · exact hql
        · exact le_trans hqu (decayQuality_le q hq)
      · rw [go, if_pos h1, if_neg h2]
        refine ⟨[], [], mkAttempt enc ext q, rfl, rfl, rfl, rfl, ?_, ?_, ?_, ?_, ?_⟩
        · simp
        · intro x hx
          rcases List.mem_cons.mp hx with hx | hx
          · subst hx; exact ⟨hq, le_refl q, rfl, rfl⟩
          · simp at hx
        · simp
        · exact decayQuality_ge_ten q
        · exact decayQuality_le q hq
    · rw [go, if_neg h1]
      refine ⟨[], [], mkAttempt enc ext q, rfl, rfl, rfl, rfl, ?_, ?_, ?_, hq, le_refl q⟩
      · simp
      · intro x hx
        rcases List.mem_cons.mp hx with hx | hx
        · subst hx; exact ⟨hq, le_refl q, rfl, rfl⟩
        · simp at hx
      · simp

/-- The loop invariant at the entry point `resizeLoop`. -/
theorem resizeLoop_spec (enc : EncodeConfig → List ℕ) (ext : String) :
    ∃ (rest pre : List Attempt) (last : Attempt),
      (resizeLoop enc ext).trace = mkAttempt enc ext 95 :: rest ∧
      mkAttempt enc ext 95 :: rest = pre ++ [last] ∧
      (resizeLoop enc ext).buffer = last.bytes ∧
      (resizeLoop enc ext).attempts = (mkAttempt enc ext 95 :: rest).length ∧
      (mkAttempt enc ext 95 :: rest).length ≤ maxAttempts ∧
      (∀ x ∈ mkAttempt enc ext 95 :: rest,
        10 ≤ x.quality ∧ x.quality ≤ 95 ∧
          x.config = encodeConfig ext x.quality ∧ x.bytes = enc x.config) ∧
      List.Chain' (fun x y => y.quality = decayQuality x.quality)
        (mkAttempt enc ext 95 :: rest) ∧
      10 ≤ (resizeLoop enc ext).quality ∧ (resizeLoop enc ext).quality ≤ 95 := by
  obtain ⟨rest, pre, last, htr, happ, hbuf, hatt, hlen, hall, hchain, hql, hqu⟩ :=
    go_spec enc ext maxAttempts 95 0 [] (by omega) (by norm_num [maxAttempts])
      (by norm_num)
  refine ⟨rest, pre, last, ?_, happ, hbuf, ?_, hlen, hall, hchain, hql, hqu⟩
  · rw [show resizeLoop enc ext = go enc ext maxAttempts 95 0 [] from rfl, htr,
      List.nil_append]
  · rw [show resizeLoop enc ext = go enc ext maxAttempts 95 0 [] from rfl, hatt,
      Nat.zero_add]

/-! ### Exact runs of the loop -/

/-- When every attempt stays over the byte budget, the loop performs the full
`maxAttempts` attempts at qualities `qAt 0, …, qAt 9`, ends with the buffer of
the tenth attempt, and — because line 108 updates `quality` once more after
the tenth encode — exits with `quality = qAt 10`. -/
theorem go_all_oversize (enc : EncodeConfig → List ℕ) (ext : String)
    (hov : ∀ j, j < maxAttempts →
      MAX_FILE_SIZE < (enc (encodeConfig ext (qAt j))).length) :
    ∀ (f a : ℕ) (tr : List Attempt), a + f = maxAttempts → 1 ≤ f →
      go enc ext f (qAt a) a tr =
        ⟨enc (encodeConfig ext (qAt 9)), qAt 10, maxAttempts,
          tr ++ attemptsFrom enc ext a f⟩ := by
  intro f
  induction f with
  | zero => intro a tr ha hf; omega
  | succ f ih =>
    intro a tr ha hf
    have hM : maxAttempts = 10 := rfl
    have h1 : MAX_FILE_SIZE < (enc (encodeConfig ext (qAt a))).length ∧
        10 < qAt a :=
      ⟨hov a (by omega), qAt_gt_ten a (by omega)⟩
    by_cases hrec : a + 1 < maxAttempts
    · have h2 : MAX_FILE_SIZE < (enc (encodeConfig ext (qAt a))).length ∧
          a + 1 < maxAttempts ∧ 10 < decayQuality (qAt a) :=
        ⟨h1.1, hrec, by rw [← qAt_succ]; exact qAt_gt_ten (a + 1) (by omega)⟩
      have hf' : 1 ≤ f := by omega
      rw [go, if_pos h1, if_pos h2, ← qAt_succ,
        ih (a + 1) (tr ++ [mkAttempt enc ext (qAt a)]) (by omega) hf']
      congr 1
      rw [show attemptsFrom enc ext a (f + 1) =
            mkAttempt enc ext (qAt a) :: attemptsFrom enc ext (a + 1) f from rfl,
        List.append_assoc, List.singleton_append]
    · have ha9 : a = 9 := by omega
      have hf0 : f = 0 := by omega
      subst ha9 hf0
      have h2 : ¬ (MAX_FILE_SIZE < (enc (encodeConfig ext (qAt 9))).length ∧
          9 + 1 < maxAttempts ∧ 10 < decayQuality (qAt 9)) := by
        intro hcon
        exact absurd hcon.2.1 hrec
      rw [go, if_pos h1, if_neg h2]
      rfl

/-- When the first `b` attempts stay over the byte budget and attempt `b + 1`
(at quality `qAt b`) lands at or below it, the loop breaks at attempt `b + 1`
with that attempt's buffer and with `quality` still equal to `qAt b` (the
`else break` at line 111 skips the final quality update). -/
theorem go_reach_good (enc : EncodeConfig → List ℕ) (ext : String) (b : ℕ)
    (hb : b < maxAttempts)
    (hgood : (enc (encodeConfig ext (qAt b))).length ≤ MAX_FILE_SIZE)
    (hov : ∀ j, j < b → MAX_FILE_SIZE < (enc (encodeConfig ext (qAt j))).length) :
    ∀ (f a : ℕ) (tr : List Attempt), a + f = maxAttempts → a ≤ b →
      go enc ext f (qAt a) a tr =
        ⟨enc (encodeConfig ext (qAt b)), qAt b, b + 1,
          tr ++ attemptsFrom enc ext a (b + 1 - a)⟩ := by
  intro f
  induction f with
  | zero =>
    intro a tr ha hab
    have hM : maxAttempts = 10 := rfl
    omega
  | succ f ih =>
    intro a tr ha hab
    have hM : maxAttempts = 10 := rfl
    by_cases heq : a = b
    · subst heq
      have h1 : ¬ (MAX_FILE_SIZE < (enc (encodeConfig ext (qAt a))).length ∧
          10 < qAt a) := by
        intro hcon
        exact absurd hcon.1 (not_lt.mpr hgood)
      rw [go, if_neg h1, show a + 1 - a = 1 from by omega]
      rfl
    · have haltb : a < b := lt_of_le_of_ne hab heq
      have h1 : MAX_FILE_SIZE < (enc (encodeConfig ext (qAt a))).length ∧
          10 < qAt a :=
        ⟨hov a haltb, qAt_gt_ten a (by omega)⟩
      have h2 : MAX_FILE_SIZE < (enc (encodeConfig ext (qAt a))).length ∧
          a + 1 < maxAttempts ∧ 10 < decayQuality (qAt a) :=
        ⟨h1.1, by omega, by rw [← qAt_succ]; exact qAt_gt_ten (a + 1) (by omega)⟩
      rw [go, if_pos h1, if_pos h2, ← qAt_succ,
        ih (a + 1) (tr ++ [mkAttempt enc ext (qAt a)]) (by omega) (by omega)]
      congr 1
      rw [show b + 1 - a = (b + 1 - (a + 1)) + 1 from by omega,
        show attemptsFrom enc ext a ((b + 1 - (a + 1)) + 1) =
          mkAttempt enc ext (qAt a) ::
            attemptsFrom enc ext (a + 1) (b + 1 - (a + 1)) from rfl,
        List.append_assoc, List.singleton_append]

/-- `resizeLoop` under an always-oversized encoder. -/
theorem resizeLoop_all_oversize (enc : EncodeConfig → List ℕ) (ext : String)
    (hov : ∀ j, j < maxAttempts →
      MAX_FILE_SIZE < (enc (encodeConfig ext (qAt j))).length) :
    resizeLoop enc ext =
      ⟨enc (encodeConfig ext (qAt 9)), qAt 10, maxAttempts,
        attemptsFrom enc ext 0 maxAttempts⟩ := by
  rw [show resizeLoop enc ext = go enc ext maxAttempts (qAt 0) 0 [] from rfl,
    go_all_oversize enc ext hov maxAttempts 0 [] (by omega)
      (by norm_num [maxAttempts]),
    List.nil_append]

/-- `resizeLoop` when attempt `b + 1` is the first one under the budget. -/
theorem resizeLoop_reach_good (enc : EncodeConfig → List ℕ) (ext : String)
    (b : ℕ) (hb : b < maxAttempts)
    (hgood : (enc (encodeConfig ext (qAt b))).length ≤ MAX_FILE_SIZE)
    (hov : ∀ j, j < b → MAX_FILE_SIZE < (enc (encodeConfig ext (qAt j))).length) :
    resizeLoop enc ext =
      ⟨enc (encodeConfig ext (qAt b)), qAt b, b + 1,
        attemptsFrom enc ext 0 (b + 1)⟩ := by
  rw [show resizeLoop enc ext = go enc ext maxAttempts (qAt 0) 0 [] from rfl,
    go_reach_good enc ext b hb hgood hov maxAttempts 0 [] (by omega) (by omega),
    List.nil_append, Nat.sub_zero]

/-! ### Arithmetic facts about the rounding division -/

theorem jsRound_bounds (a b : ℕ) (hb : 0 < b) :
    2 * b * jsRound a b ≤ 2 * a + b ∧ 2 * a + b < 2 * b * jsRound a b + 2 * b := by
  rw [jsRound]
  have e := Nat.div_add_mod (2 * a + b) (2 * b)
  have hr : (2 * a + b) % (2 * b) < 2 * b := Nat.mod_lt _ (by omega)
  constructor
  · exact le_trans (Nat.le_add_right _ _) (le_of_eq e)
  · calc 2 * a + b
        = 2 * b * ((2 * a + b) / (2 * b)) + (2 * a + b) % (2 * b) := e.symm
      _ < 2 * b * ((2 * a + b) / (2 * b)) + 2 * b := Nat.add_lt_add_left hr _

/-- The scaled side never exceeds the original side (no upscaling): when the
bound `m` is below the constrained side `y`, `Math.round(x * m / y) ≤ x`. -/
theorem jsRound_mul_le_self (x y m : ℕ) (hy : 0 < y) (hmy : m < y) :
    jsRound (x * m) y ≤ x := by
  obtain ⟨K1, _⟩ := jsRound_bounds (x * m) y hy
  by_contra hc
  push_neg at hc
  have hc' : x + 1 ≤ jsRound (x * m) y := hc
  have hmy' : m + 1 ≤ y := hmy
  have A : 2 * y * (x + 1) ≤ 2 * y * jsRound (x * m) y := mul_le_mul_left' hc' (2 * y)
  have B : x * (m + 1) ≤ x * y := mul_le_mul_left' hmy' x
  have hy1 : 1 ≤ y := hy
  nlinarith [A, B, K1]

/-- The scaled side never exceeds the bound: when the other side `x` is at
most the constrained side `y`, `Math.round(x * m / y) ≤ m`. -/
theorem jsRound_mul_le_bound (x y m : ℕ) (hy : 0 < y) (hxy : x ≤ y) :
    jsRound (x * m) y ≤ m := by
  obtain ⟨K1, _⟩ := jsRound_bounds (x * m) y hy
  by_contra hc
  push_neg at hc
  have hc' : m + 1 ≤ jsRound (x * m) y := hc
  have A : 2 * y * (m + 1) ≤ 2 * y * jsRound (x * m) y := mul_le_mul_left' hc' (2 * y)
  have B : x * m ≤ y * m := mul_le_mul_right' hxy m
  have hy1 : 1 ≤ y := hy
  nlinarith [A, B, K1]

/-- Rounding half up lands within half a unit of the exact ratio. -/
theorem jsRound_ratio (a b : ℕ) (hb : 0 < b) :
    |(jsRound a b : ℚ) - (a : ℚ) / (b : ℚ)| ≤ 1 / 2 := by
  obtain ⟨K1, K2⟩ := jsRound_bounds a b hb
  have hbQ : (0 : ℚ) < (b : ℚ) := by exact_mod_cast hb
  have K1Q : 2 * (b : ℚ) * (jsRound a b : ℚ) ≤ 2 * (a : ℚ) + (b : ℚ) := by
    exact_mod_cast K1
  have K2Q : 2 * (a : ℚ) + (b : ℚ) < 2 * (b : ℚ) * (jsRound a b : ℚ) + 2 * (b : ℚ) := by
    exact_mod_cast K2
  rw [abs_le]
  constructor
  · have hlt : (a : ℚ) / (b : ℚ) < (jsRound a b : ℚ) + 1 / 2 := by
      rw [div_lt_iff₀ hbQ]
      linarith
    linarith
  · have hle : (jsRound a b : ℚ) - 1 / 2 ≤ (a : ℚ) / (b : ℚ) := by
      rw [le_div_iff₀ hbQ]
      linarith
    linarith

/-! ### C1: the dimension planner -/

/-- C1: for every `width, height, maxLongestSide > 0` the plan never exceeds
the input on either axis; if `max(width, height) ≤ maxLongestSide` the output
equals the input exactly; otherwise the longest output side equals
`maxLongestSide` exactly and the other side is
`Math.round(otherSide * maxLongestSide / constrainedSide)`, which lies within
half a pixel of the exact ratio scaling. -/
theorem dimension_plan_spec (w h m : ℕ) (hw : 0 < w) (hh : 0 < h) (hm : 0 < m) :
    (plan w h m).1 ≤ w ∧ (plan w h m).2 ≤ h ∧
    (max w h ≤ m → plan w h m = (w, h)) ∧
    (m < max w h →
      max (plan w h m).1 (plan w h m).2 = m ∧
      (h < w → plan w h m = (m, jsRound (h * m) w) ∧
        |(jsRound (h * m) w : ℚ) - (h * m : ℚ) / (w : ℚ)| ≤ 1 / 2) ∧
      (w ≤ h → plan w h m = (jsRound (w * m) h, m) ∧
        |(jsRound (w * m) h : ℚ) - (w * m : ℚ) / (h : ℚ)| ≤ 1 / 2)) := by
  by_cases hhw : h < w
  · by_cases hmw : m < w
    · have hplan : plan w h m = (m, jsRound (h * m) w) := by
        rw [plan, if_pos hhw, if_pos hmw]
      refine ⟨?_, ?_, ?_, ?_⟩
      · rw [hplan]; exact le_of_lt hmw
      · rw [hplan]; exact jsRound_mul_le_self h w m hw hmw
      · intro hmax
        exact absurd (le_trans (le_max_left w h) hmax) (not_le.mpr hmw)
      · intro _
        refine ⟨?_, ?_, ?_⟩
        · rw [hplan]
          exact max_eq_left (jsRound_mul_le_bound h w m hw (le_of_lt hhw))
        · intro _
          refine ⟨hplan, ?_⟩
          have hr := jsRound_ratio (h * m) w hw
          push_cast at hr
          exact hr
        · intro hwh
          exact absurd hhw (not_lt.mpr hwh)
    · have hplan : plan w h m = (w, h) := by rw [plan, if_pos hhw, if_neg hmw]
      refine ⟨le_of_eq (by rw [hplan]), le_of_eq (by rw [hplan]),
        fun _ => hplan, ?_⟩
      intro hlt
      rw [max_eq_left (le_of_lt hhw)] at hlt
      exact absurd hlt hmw
  · by_cases hmh : m < h
    · have hplan : plan w h m = (jsRound (w * m) h, m) := by
        rw [plan, if_neg hhw, if_pos hmh]
      refine ⟨?_, ?_, ?_, ?_⟩
      · rw [hplan]; exact jsRound_mul_le_self w h m hh hmh
      · rw [hplan]; exact le_of_lt hmh
      · intro hmax
        exact absurd (le_trans (le_max_right w h) hmax) (not_le.mpr hmh)
      · intro _
        refine ⟨?_, ?_, ?_⟩
        · rw [hplan]
          exact max_eq_right (jsRound_mul_le_bound w h m hh (le_of_not_lt hhw))
        · intro hhw'
          exact absurd hhw' hhw
        · intro _
          refine ⟨hplan, ?_⟩
          have hr := jsRound_ratio (w * m) h hh
          push_cast at hr
          exact hr
    · have hplan : plan w h m = (w, h) := by rw [plan, if_neg hhw, if_neg hmh]
      refine ⟨le_of_eq (by rw [hplan]), le_of_eq (by rw [hplan]),
        fun _ => hplan, ?_⟩
      intro hlt
      rw [max_eq_right (le_of_not_lt hhw)] at hlt
      exact absurd hlt hmh

/-- C1 witness: the spec's worked examples, `plan(2000,1000,1024) = (1024,512)`
and `plan(800,600,1024) = (800,600)`, obtained from `dimension_plan_spec`. -/
theorem dimension_plan_spec_witness :
    plan 2000 1000 1024 = (1024, 512) ∧ plan 800 600 1024 = (800, 600) := by
  have H1 := dimension_plan_spec 2000 1000 1024 (by norm_num) (by norm_num)
    (by norm_num)
  have H2 := dimension_plan_spec 800 600 1024 (by norm_num) (by norm_num)
    (by norm_num)
  constructor
  · obtain ⟨-, hcase, -⟩ := H1.2.2.2 (by norm_num)
    obtain ⟨hpl, -⟩ := hcase (by norm_num)
    rw [hpl]
    norm_num [jsRound]
  · exact H2.2.2.1 (by norm_num)

/-! ### Helpers for the loop claims -/

theorem chain_quality_le (s : List Attempt) :
    (∀ x ∈ s, (10 : ℚ) ≤ x.quality) →
    List.Chain' (fun x y => y.quality = decayQuality x.quality) s →
    List.Chain' (fun x y => y.quality ≤ x.quality) s := by
  induction s with
  | nil => intro _ _; simp
  | cons x t ih =>
    intro h10 hc
    cases t with
    | nil => simp
    | cons y t' =>
      rw [List.chain'_cons] at hc ⊢
      refine ⟨?_, ih (fun z hz => h10 z (List.mem_cons_of_mem x hz)) hc.2⟩
      rw [hc.1]
      exact decayQuality_le x.quality (h10 x (List.mem_cons_self x _))

theorem oversizedEnc_oversize (c : EncodeConfig) :
    MAX_FILE_SIZE < (oversizedEnc c).length := by
  simp [oversizedEnc]

theorem encodeConfig_unsupported (ext : String)
    (hne : ext ∉ [".jpg", ".jpeg", ".png", ".webp"]) (q : ℚ) :
    encodeConfig ext q = EncodeConfig.defaults := by
  simp only [List.mem_cons, List.not_mem_nil, or_false] at hne
  push_neg at hne
  obtain ⟨h1, h2, h3, h4⟩ := hne
  rw [encodeConfig, if_neg (by tauto), if_neg h3, if_neg h4]

/-! ### C2: the quality update formula -/

/-- C2 counterexample: the loop's quality update applies no `Math.floor`.  In
the run on an incompressible jpeg, attempt 2 holds quality 76 and attempt 3
holds quality `76 * 0.8 = 304/5 = 60.8`, whereas the claimed update
`max(10, floor(quality * 0.8))` would give the integer 60. -/
theorem quality_decay_floor_counterexample :
    ((resizeLoop oversizedEnc ".jpg").trace.map Attempt.quality)[1]? = some 76 ∧
    ((resizeLoop oversizedEnc ".jpg").trace.map Attempt.quality)[2]? =
      some (304 / 5) ∧
    (304 / 5 : ℚ) ≠ ((max 10 ⌊(76 : ℚ) * (4 / 5)⌋ : ℤ) : ℚ) := by
  have hres := resizeLoop_all_oversize oversizedEnc ".jpg"
    (fun j _ => oversizedEnc_oversize _)
  have htr : (resizeLoop oversizedEnc ".jpg").trace.map Attempt.quality =
      [qAt 0, qAt 1, qAt 2, qAt 3, qAt 4, qAt 5, qAt 6, qAt 7, qAt 8, qAt 9] := by
    rw [hres]
    rfl
  refine ⟨?_, ?_, ?_⟩
  · rw [htr]
    simp [qAt_one]
  · rw [htr]
    simp [qAt_two]
  · have hfl : ⌊(76 : ℚ) * (4 / 5)⌋ = 60 := by
      rw [Int.floor_eq_iff]
      norm_num
    rw [hfl]
    norm_num

/-- C2 (amended): whenever the loop performs another attempt after one that
exceeded the byte budget, the next attempt's quality is exactly
`max(10, quality * 0.8)` — the exponential decay floored at `minQuality = 10`
but with no integer rounding, so updated qualities are in general not
integers. -/
theorem quality_decay_rule (enc : EncodeConfig → List ℕ) (ext : String) :
    List.Chain' (fun x y => y.quality = max 10 (x.quality * (4 / 5)))
      (resizeLoop enc ext).trace := by
  obtain ⟨rest, pre, last, htr, -, -, -, -, -, hchain, -, -⟩ :=
    resizeLoop_spec enc ext
  rw [htr]
  simpa [decayQuality] using hchain

/-! ### C3: monotonic quality, bounded attempts -/

/-- C3: within one call, the quality used across successive attempts is
non-increasing, the `attempts` counter counts the performed attempts, and
the loop always terminates after at most `maxAttempts = 10` attempts. -/
theorem quality_monotone_attempts_bounded (enc : EncodeConfig → List ℕ)
    (ext : String) :
    (resizeLoop enc ext).attempts ≤ maxAttempts ∧
    (resizeLoop enc ext).attempts = (resizeLoop enc ext).trace.length ∧
    List.Chain' (fun x y => y.quality ≤ x.quality) (resizeLoop enc ext).trace := by
  obtain ⟨rest, pre, last, htr, -, -, hatt, hlen, hall, hchain, -, -⟩ :=
    resizeLoop_spec enc ext
  refine ⟨?_, ?_, ?_⟩
  · rw [hatt]; exact hlen
  · rw [hatt, htr]
  · rw [htr]
    exact chain_quality_le _ (fun x hx => (hall x hx).1) hchain

/-! ### C4: unsupported output extensions -/

/-- C4 counterexample: for an output extension outside jpg/jpeg/png/webp the
loop does NOT exit after a single encode: when the default-settings encode
exceeds the byte budget, the loop performs the full 10 attempts. -/
theorem passthrough_counterexample :
    (".tiff" : String) ∉ ([".jpg", ".jpeg", ".png", ".webp"] : List String) ∧
    (resizeLoop oversizedEnc ".tiff").attempts = maxAttempts ∧
    (resizeLoop oversizedEnc ".tiff").attempts ≠ 1 := by
  have hres := resizeLoop_all_oversize oversizedEnc ".tiff"
    (fun j _ => oversizedEnc_oversize _)
  refine ⟨by decide, by rw [hres], by rw [hres]; decide⟩

/-- C4 (amended): for an output extension outside jpg/jpeg/png/webp every
attempt encodes at the encoder's default settings (the quality variable has no
effect on the encode); the loop exits after exactly one attempt when that
default encode is at or below the byte budget, but performs the full
`maxAttempts = 10` identical attempts when it exceeds the budget. -/
theorem passthrough_amended (enc : EncodeConfig → List ℕ) (ext : String)
    (hext : ext ∉ [".jpg", ".jpeg", ".png", ".webp"]) :
    (∀ x ∈ (resizeLoop enc ext).trace, x.config = EncodeConfig.defaults) ∧
    ((enc EncodeConfig.defaults).length ≤ MAX_FILE_SIZE →
      (resizeLoop enc ext).attempts = 1) ∧
    (MAX_FILE_SIZE < (enc EncodeConfig.defaults).length →
      (resizeLoop enc ext).attempts = maxAttempts) := by
  have hcfg : ∀ q : ℚ, encodeConfig ext q = EncodeConfig.defaults :=
    encodeConfig_unsupported ext hext
  refine ⟨?_, ?_, ?_⟩
  · obtain ⟨rest, pre, last, htr, -, -, -, -, hall, -, -, -⟩ :=
      resizeLoop_spec enc ext
    intro x hx
    rw [htr] at hx
    rw [(hall x hx).2.2.1, hcfg]
  · intro hsmall
    rw [resizeLoop_reach_good enc ext 0 (by norm_num [maxAttempts])
      (by rw [hcfg]; exact hsmall) (fun j hj => absurd hj (Nat.not_lt_zero j))]
  · intro hbig
    rw [resizeLoop_all_oversize enc ext (fun j _ => by rw [hcfg]; exact hbig)]

/-- C4 witness: a `.tiff` output whose default encode is under the budget is
encoded exactly once. -/
theorem passthrough_amended_witness :
    (".tiff" : String) ∉ ([".jpg", ".jpeg", ".png", ".webp"] : List String) ∧
    (emptyEnc EncodeConfig.defaults).length ≤ MAX_FILE_SIZE ∧
    (resizeLoop emptyEnc ".tiff").attempts = 1 := by
  refine ⟨by decide, by simp [emptyEnc], ?_⟩
  exact (passthrough_amended emptyEnc ".tiff" (by decide)).2.1 (by simp [emptyEnc])

/-! ### C5: budget non-convergence -/

/-- C5 counterexample: on an image that stays over the budget at every
attempt, the loop does end at `attempts = 10`, but the final quality is NOT
10: line 108 updates the quality once more after the tenth encode to
`95 * 0.8^10 = 19922944/1953125 ≈ 10.2005`, which is strictly above 10. -/
theorem budget_nonconvergence_counterexample :
    (resizeLoop oversizedEnc ".jpg").attempts = maxAttempts ∧
    (resizeLoop oversizedEnc ".jpg").quality ≠ 10 := by
  have hres := resizeLoop_all_oversize oversizedEnc ".jpg"
    (fun j _ => oversizedEnc_oversize _)
  refine ⟨by rw [hres], ?_⟩
  rw [hres]
  show qAt 10 ≠ 10
  rw [qAt_ten]
  norm_num

/-- C5 (amended): when every encode attempt exceeds the byte budget, the loop
terminates at `attempts = 10` with `quality = 95 * 0.8^10 = 19922944/1953125`
(strictly above the minimum 10, never exactly 10, because the decay is not
floored), and returns the bytes of the tenth attempt without any error. -/
theorem budget_nonconvergence_amended (enc : EncodeConfig → List ℕ)
    (ext : String)
    (hov : ∀ j, j < maxAttempts →
      MAX_FILE_SIZE < (enc (encodeConfig ext (qAt j))).length) :
    (resizeLoop enc ext).attempts = maxAttempts ∧
    (resizeLoop enc ext).quality = 19922944 / 1953125 ∧
    10 < (resizeLoop enc ext).quality ∧
    (resizeLoop enc ext).buffer = enc (encodeConfig ext (qAt 9)) := by
  rw [resizeLoop_all_oversize enc ext hov]
  refine ⟨rfl, ?_, ?_, rfl⟩
  · show qAt 10 = _
    rw [qAt_ten]
  · show (10 : ℚ) < qAt 10
    exact qAt_gt_ten 10 (le_refl 10)

/-- C5 witness: the always-oversized encoder satisfies the hypothesis, and the
loop then ends at `attempts = 10` with quality `19922944/1953125`. -/
theorem budget_nonconvergence_amended_witness :
    (resizeLoop oversizedEnc ".png").attempts = maxAttempts ∧
    (resizeLoop oversizedEnc ".png").quality = 19922944 / 1953125 := by
  have H := budget_nonconvergence_amended oversizedEnc ".png"
    (fun j _ => oversizedEnc_oversize _)
  exact ⟨H.1, H.2.1⟩

/-! ### C6: attempt quality range -/

/-- C6 counterexample: attempt qualities are not integers: in the run on an
incompressible jpeg, attempt 3 uses quality `304/5 = 60.8`, whose denominator
is 5, not 1. -/
theorem attempt_quality_integer_counterexample :
    (304 / 5 : ℚ) ∈ (resizeLoop oversizedEnc ".jpg").trace.map Attempt.quality ∧
    (304 / 5 : ℚ).den ≠ 1 := by
  constructor
  · have hres := resizeLoop_all_oversize oversizedEnc ".jpg"
      (fun j _ => oversizedEnc_oversize _)
    have htr : (resizeLoop oversizedEnc ".jpg").trace.map Attempt.quality =
        [qAt 0, qAt 1, qAt 2, qAt 3, qAt 4, qAt 5, qAt 6, qAt 7, qAt 8, qAt 9] := by
      rw [hres]
      rfl
    rw [htr, show (304 / 5 : ℚ) = qAt 2 from qAt_two.symm]
    simp
  · have hden : (304 / 5 : ℚ).den = 5 := by norm_num [Rat.den]
    omega

/-- C6 (amended): every encode attempt's quality is a rational (not
necessarily integer) value in the range `[10, 95]`, and the first attempt
uses quality 95. -/
theorem attempt_quality_range (enc : EncodeConfig → List ℕ) (ext : String) :
    ((resizeLoop enc ext).trace.map Attempt.quality).head? = some 95 ∧
    ∀ x ∈ (resizeLoop enc ext).trace, 10 ≤ x.quality ∧ x.quality ≤ 95 := by
  obtain ⟨rest, pre, last, htr, -, -, -, -, hall, -, -, -⟩ :=
    resizeLoop_spec enc ext
  constructor
  · rw [htr]
    rfl
  · intro x hx
    rw [htr] at hx
    exact ⟨(hall x hx).1, (hall x hx).2.1⟩

/-! ### C7: PNG compression level -/

/-- C7: every encode attempt of a PNG output uses the compression level
`min(9, round(9 * (100 - quality) / 100))` derived from that attempt's
quality (together with the quality itself, src/index.ts lines 92-99). -/
theorem png_compression_formula (enc : EncodeConfig → List ℕ) (x : Attempt)
    (hx : x ∈ (resizeLoop enc ".png").trace) :
    x.config =
      EncodeConfig.png (min 9 ⌊9 * (100 - x.quality) / 100 + 1 / 2⌋) x.quality := by
  obtain ⟨rest, pre, last, htr, -, -, -, -, hall, -, -, -⟩ :=
    resizeLoop_spec enc ".png"
  rw [htr] at hx
  rw [(hall x hx).2.2.1, encodeConfig, if_neg (by decide), if_pos rfl]
  rfl

/-- C7 witness: the single attempt of an under-budget PNG run carries
compression level `min(9, round(9 * 5 / 100)) = 0` at quality 95. -/
theorem png_compression_formula_witness :
    mkAttempt emptyEnc ".png" 95 ∈ (resizeLoop emptyEnc ".png").trace ∧
    (mkAttempt emptyEnc ".png" 95).config =
      EncodeConfig.png (min 9 ⌊9 * (100 - (95 : ℚ)) / 100 + 1 / 2⌋) 95 := by
  have hmem : mkAttempt emptyEnc ".png" 95 ∈ (resizeLoop emptyEnc ".png").trace := by
    obtain ⟨rest, pre, last, htr, -, -, -, -, -, -, -, -⟩ :=
      resizeLoop_spec emptyEnc ".png"
    rw [htr]
    exact List.mem_cons_self _ _
  exact ⟨hmem, png_compression_formula emptyEnc _ hmem⟩

/-! ### C8: budget convergence -/

/-- C8: when the encode at the initial quality 95 exceeds the byte budget but
some quality reachable by the decay sequence within the 10 attempts encodes at
or below it, the loop terminates with a final quality strictly below 95 and a
returned buffer within the budget. -/
theorem budget_convergence (enc : EncodeConfig → List ℕ) (ext : String)
    (h95 : MAX_FILE_SIZE < (enc (encodeConfig ext (qAt 0))).length)
    (hgood : ∃ k, k < maxAttempts ∧
      (enc (encodeConfig ext (qAt k))).length ≤ MAX_FILE_SIZE) :
    (resizeLoop enc ext).quality < 95 ∧
    (resizeLoop enc ext).buffer.length ≤ MAX_FILE_SIZE := by
  have hwit : ∃ k, k < maxAttempts ∧
      (enc (encodeConfig ext (qAt k))).length ≤ MAX_FILE_SIZE := hgood
  have hov : ∀ j, j < Nat.find hwit →
      MAX_FILE_SIZE < (enc (encodeConfig ext (qAt j))).length := by
    intro j hj
    have hnP := Nat.find_min hwit hj
    by_contra hle
    push_neg at hle
    exact hnP ⟨lt_trans hj (Nat.find_spec hwit).1, hle⟩
  have hk0 : Nat.find hwit ≠ 0 := by
    intro h0
    have hsp := (Nat.find_spec hwit).2
    rw [h0] at hsp
    exact absurd h95 (not_lt.mpr hsp)
  rw [resizeLoop_reach_good enc ext (Nat.find hwit) (Nat.find_spec hwit).1
    (Nat.find_spec hwit).2 hov]
  constructor
  · show qAt (Nat.find hwit) < 95
    have h1 : 1 ≤ Nat.find hwit := Nat.one_le_iff_ne_zero.mpr hk0
    have hle : qAt (Nat.find hwit) ≤ qAt 1 := qAt_anti h1
    rw [qAt_one] at hle
    linarith
  · exact (Nat.find_spec hwit).2

/-- C8 witness: an encoder over budget at jpeg quality 95 and under it at the
second attempt's quality 76 ends below quality 95 and within the budget. -/
theorem budget_convergence_witness :
    (resizeLoop stepEnc ".jpg").quality < 95 ∧
    (resizeLoop stepEnc ".jpg").buffer.length ≤ MAX_FILE_SIZE := by
  apply budget_convergence
  · rw [qAt_zero, encodeConfig, if_pos (Or.inl rfl)]
    simp [stepEnc]
  · refine ⟨1, by norm_num [maxAttempts], ?_⟩
    rw [qAt_one, encodeConfig, if_pos (Or.inl rfl)]
    rw [show stepEnc (EncodeConfig.jpeg 76) = [] from by
      rw [show stepEnc (EncodeConfig.jpeg 76) =
        (if (76 : ℚ) = 95 then List.replicate (MAX_FILE_SIZE + 1) 0 else []) from rfl,
        if_neg (by norm_num)]]
    simp

/-! ### C9: per-file failure isolation -/

theorem processFiles_eq (l : List Bool) :
    ∀ p e, processFiles l p e = (p + l.count true, e + l.count false) := by
  induction l with
  | nil => intro p e; simp [processFiles]
  | cons b rest ih =>
    intro p e
    cases b <;> simp [processFiles, ih, List.count_cons, Prod.ext_iff] <;> omega

/-- C9: a file whose processing throws is caught at the per-file boundary: it
adds exactly one to the failure count, every file before and after it is still
processed, and the final summary pair reports the processed and failed counts
over the whole batch — a single failure never aborts the batch. -/
theorem per_file_failure_isolation (pre post : List Bool) :
    processFiles (pre ++ false :: post) 0 0 =
      (pre.count true + post.count true,
        pre.count false + 1 + post.count false) := by
  rw [processFiles_eq]
  simp [List.count_append, List.count_cons, Prod.ext_iff]
  omega

/-! ### C10: the result is always written -/

/-- C10: every call of the encoder loop performs at least one attempt (the
loop is do/while), the returned buffer is exactly the bytes of the final
attempt, and `resizeImage` writes that buffer to the output path
unconditionally — also when its length still exceeds the byte budget (the
encoder oracle here is arbitrary, in particular one that always exceeds it). -/
theorem encode_result_always_written (enc : EncodeConfig → List ℕ)
    (width height : ℕ) (outputPath : String) :
    1 ≤ (resizeImageModel enc width height outputPath).result.attempts ∧
    (∃ (pre : List Attempt) (last : Attempt),
      (resizeImageModel enc width height outputPath).result.trace =
        pre ++ [last] ∧
      (resizeImageModel enc width height outputPath).result.buffer =
        last.bytes) ∧
    (resizeImageModel enc width height outputPath).writes =
      [(outputPath,
        (resizeImageModel enc width height outputPath).result.buffer)] := by
  obtain ⟨rest, pre, last, htr, happ, hbuf, hatt, -, -, -, -, -⟩ :=
    resizeLoop_spec enc (getExtension outputPath)
  have hres : (resizeImageModel enc width height outputPath).result =
      resizeLoop enc (getExtension outputPath) := rfl
  refine ⟨?_, ⟨pre, last, ?_, ?_⟩, rfl⟩
  · rw [hres, hatt, List.length_cons]
    omega
  · rw [hres, htr, happ]
  · rw [hres, hbuf]

end ResizeImage
